import Mathlib

/-!
Verification of the govim protocol-bridge specification.

The repository ships two concrete source artifacts: the `genapijson`
generator (`generate.go`) and a scenario test asserting which files receive
diagnostics pushes.  The bridge itself (Document State, Request Tracker,
Dispatcher) is described by the specification; its operations are modelled
here from the spec's contracts (each such definition says so in its doc
comment) and the generator's pure functions are embedded directly from the
Go source.
-/

/-- Modelled from the spec: a server-reported issue attached to a range of
text: `(range, severity, message, source)` tuples of a DiagnosticSet.
(The bridge's diagnostics code is not under src/.) -/
structure Diagnostic where
  rangeStart : Nat
  rangeEnd : Nat
  severity : Nat
  message : String
  source : String
deriving Repr, DecidableEq

/-- Modelled from the spec: a Document tracks the current content version,
the last version sent to the server, the version the most recently applied
diagnostics were computed against (absent until some set is applied), and
the retained DiagnosticSet.  (Document State is not under src/.) -/
structure Document where
  currentVersion : Nat
  lastSent : Nat
  lastDiagVersion : Option Nat
  retained : List Diagnostic
deriving Repr, DecidableEq

/-- The Document map of a Session, keyed by canonical file URI. -/
abbrev DocMap := List (String × Document)

/-- Look up the Document for a URI. -/
def lookupDoc : DocMap → String → Option Document
  | [], _ => none
  | (u, d) :: rest, uri => if u = uri then some d else lookupDoc rest uri

/-- Remove the Document for a URI. -/
def removeDoc (m : DocMap) (uri : String) : DocMap :=
  m.filter fun p => p.1 ≠ uri

/-- Replace the Document stored for a URI. -/
def updateDoc (m : DocMap) (uri : String) (d : Document) : DocMap :=
  (uri, d) :: removeDoc m uri

/-- Editor-visible and wire-visible effects of a Document State operation:
the open/change/close notifications sent to the server and the
diagnostics-updated pushes to the editor surface. -/
inductive Event
  | openNote (uri : String)
  | changeNote (uri : String) (version : Nat)
  | closeNote (uri : String)
  | diagPush (uri : String) (diags : List Diagnostic)
deriving Repr, DecidableEq

/-- Modelled from the spec: `onOpen(uri, initialContent)` creates a
Document, sends an open notification, and sets last-sent = current = 0.
(Document State is not under src/.) -/
def onOpen (m : DocMap) (uri : String) : DocMap × List Event :=
  (updateDoc m uri ⟨0, 0, none, []⟩, [.openNote uri])

/-- Modelled from the spec: `onChange(uri, newContent, newVersion)` requires
newVersion > current; it updates current, sends a change notification
carrying newVersion, and sets last-sent = newVersion.  Calls that violate
the precondition (or name no open Document) are modelled as no-ops.
(Document State is not under src/.) -/
def onChange (m : DocMap) (uri : String) (newVersion : Nat) :
    DocMap × List Event :=
  match lookupDoc m uri with
  | none => (m, [])
  | some d =>
    if d.currentVersion < newVersion then
      (updateDoc m uri
        { d with currentVersion := newVersion, lastSent := newVersion },
       [.changeNote uri newVersion])
    else (m, [])

/-- Modelled from the spec: `onClose(uri)` sends a close notification,
removes the Document, and clears any retained DiagnosticSet from the
editor-visible state (an empty diagnostics push when one was outstanding).
(Document State is not under src/.) -/
def onClose (m : DocMap) (uri : String) : DocMap × List Event :=
  match lookupDoc m uri with
  | none => (m, [])
  | some d =>
    (removeDoc m uri,
     if d.retained = [] then [.closeNote uri]
     else [.closeNote uri, .diagPush uri []])

/-- Modelled from the spec: `applyDiagnostics(uri, version, diagnostics)`:
if the Document no longer exists (closed) or version <
lastDiagnosticsVersion, discard silently; otherwise replace the retained
DiagnosticSet, set lastDiagnosticsVersion = version, and push the result to
the editor-visible surface.  (Document State is not under src/.) -/
def applyDiagnostics (m : DocMap) (uri : String) (version : Nat)
    (diags : List Diagnostic) : DocMap × List Event :=
  match lookupDoc m uri with
  | none => (m, [])
  | some d =>
    match d.lastDiagVersion with
    | some v' =>
      if version < v' then (m, [])
      else
        (updateDoc m uri
          { d with lastDiagVersion := some version, retained := diags },
         [.diagPush uri diags])
    | none =>
      (updateDoc m uri
        { d with lastDiagVersion := some version, retained := diags },
       [.diagPush uri diags])

/-- One editor-originated or server-originated operation on Document State. -/
inductive Op
  | opOpen (uri : String)
  | opChange (uri : String) (newVersion : Nat)
  | opClose (uri : String)
  | opApplyDiag (uri : String) (version : Nat) (diags : List Diagnostic)
deriving Repr, DecidableEq

/-- Apply one operation to the Document map. -/
def stepDoc (m : DocMap) (o : Op) : DocMap × List Event :=
  match o with
  | .opOpen uri => onOpen m uri
  | .opChange uri v => onChange m uri v
  | .opClose uri => onClose m uri
  | .opApplyDiag uri v ds => applyDiagnostics m uri v ds

/-- Run a sequence of operations, returning the final Document map. -/
def runDoc (m : DocMap) : List Op → DocMap
  | [] => m
  | o :: rest => runDoc (stepDoc m o).1 rest

/-- Run a sequence of operations, collecting every emitted event in order. -/
def runEvents (m : DocMap) : List Op → List Event
  | [] => []
  | o :: rest => (stepDoc m o).2 ++ runEvents (stepDoc m o).1 rest

/-- The diagnostics-updated pushes for one URI among a list of events,
in order, each as the pushed list. -/
def diagPushesFor (uri : String) (evs : List Event) : List (List Diagnostic) :=
  evs.filterMap fun e =>
    match e with
    | .diagPush u ds => if u = uri then some ds else none
    | _ => none

/-- Concrete Document map used by witnesses: one open document at version 3
whose last applied diagnostics were computed against version 2. -/
def wDocMap : DocMap := [("a.go", ⟨3, 3, some 2, []⟩)]

/-- C1: diagnostics computed against version V, applied strictly after
diagnostics already applied for version V' > V, are discarded: the Document
map (hence the retained DiagnosticSet) is unchanged and nothing is pushed,
so an out-of-order application never replaces a newer retained result with
an older one. -/
theorem applyDiagnostics_stale_discarded (m : DocMap) (uri : String)
    (d : Document) (vNew vOld : Nat) (diags : List Diagnostic)
    (hd : lookupDoc m uri = some d) (hv : d.lastDiagVersion = some vOld)
    (hlt : vNew < vOld) :
    applyDiagnostics m uri vNew diags = (m, []) := by
  simp [applyDiagnostics, hd, hv, hlt]

/-- Witness for C1 at a concrete input: version-1 diagnostics arriving after
version-2 diagnostics were applied are discarded. -/
theorem applyDiagnostics_stale_discarded_witness :
    applyDiagnostics wDocMap "a.go" 1 [] = (wDocMap, []) :=
  applyDiagnostics_stale_discarded wDocMap "a.go" ⟨3, 3, some 2, []⟩ 1 2 []
    rfl rfl (by decide)

/-- C2: `applyDiagnostics(uri, version, diagnostics)` discards silently,
leaving all state unchanged and raising no error, when the Document no
longer exists or version < lastDiagnosticsVersion; otherwise it replaces
the retained DiagnosticSet, sets lastDiagnosticsVersion = version, and
pushes the new set to the editor-visible surface. -/
theorem applyDiagnostics_contract (m : DocMap) (uri : String) (version : Nat)
    (diags : List Diagnostic) :
    (lookupDoc m uri = none → applyDiagnostics m uri version diags = (m, [])) ∧
    (∀ d v', lookupDoc m uri = some d → d.lastDiagVersion = some v' →
      version < v' → applyDiagnostics m uri version diags = (m, [])) ∧
    (∀ d, lookupDoc m uri = some d →
      (d.lastDiagVersion = none ∨
        ∃ v', d.lastDiagVersion = some v' ∧ v' ≤ version) →
      applyDiagnostics m uri version diags =
        (updateDoc m uri
          { d with lastDiagVersion := some version, retained := diags },
         [.diagPush uri diags])) := by
  refine ⟨fun hnone => by simp [applyDiagnostics, hnone], ?_, ?_⟩
  · intro d v' hd hv hlt
    simp [applyDiagnostics, hd, hv, hlt]
  · intro d hd hcase
    rcases hcase with hnone | ⟨v', hv, hle⟩
    · simp [applyDiagnostics, hd, hnone]
    · simp [applyDiagnostics, hd, hv, Nat.not_lt.mpr hle]

/-- Witness for C2 at a concrete input: diagnostics for a closed (absent)
document are silently discarded. -/
theorem applyDiagnostics_contract_witness :
    applyDiagnostics [] "a.go" 1 [] = ([], []) :=
  (applyDiagnostics_contract [] "a.go" 1 []).1 rfl

/-- C7: for an open Document and newVersion > current version,
`onChange(uri, newContent, newVersion)` sets the current version to
newVersion, sends exactly one change notification carrying newVersion, and
sets last-sent = newVersion. -/
theorem onChange_contract (m : DocMap) (uri : String) (d : Document)
    (newVersion : Nat) (hd : lookupDoc m uri = some d)
    (hv : d.currentVersion < newVersion) :
    onChange m uri newVersion =
      (updateDoc m uri
        { d with currentVersion := newVersion, lastSent := newVersion },
       [.changeNote uri newVersion]) := by
  simp [onChange, hd, hv]

/-- Witness for C7 at a concrete input: a change to version 1 of a document
opened at version 0. -/
theorem onChange_contract_witness :
    onChange [("a.go", ⟨0, 0, none, []⟩)] "a.go" 1 =
      (updateDoc [("a.go", ⟨0, 0, none, []⟩)] "a.go" ⟨1, 1, none, []⟩,
       [.changeNote "a.go" 1]) :=
  onChange_contract [("a.go", ⟨0, 0, none, []⟩)] "a.go" ⟨0, 0, none, []⟩ 1
    rfl (by decide)

/-- Modelled from the spec and the scenario test: the single non-empty
DiagnosticSet the server computes for `main.go`, whose body is the invalid
declaration `blah`; the error-free `other.go` yields no publication.
(The bridge and test driver are not under src/.) -/
def mainGoDiag : Diagnostic :=
  ⟨2, 2, 1, "expected declaration, found blah", "compiler"⟩

/-- Modelled from the spec and the scenario test: open `main.go` (compile
error), the server publishes its diagnostics, then open `other.go` (no
errors, so the server publishes nothing for it). -/
def mainOtherTrace : List Op :=
  [.opOpen "file://WORK/main.go",
   .opApplyDiag "file://WORK/main.go" 0 [mainGoDiag],
   .opOpen "file://WORK/other.go"]

/-- C8: in the scenario where `main.go` (compile error) is opened and then
`other.go` (no errors) is opened, exactly one diagnostics-updated push
occurs for `main.go`, it carries a non-empty list, and zero pushes occur
for `other.go`. -/
theorem mainGo_one_push_otherGo_none :
    diagPushesFor "file://WORK/main.go" (runEvents [] mainOtherTrace) =
      [[mainGoDiag]] ∧
    [mainGoDiag] ≠ ([] : List Diagnostic) ∧
    diagPushesFor "file://WORK/other.go" (runEvents [] mainOtherTrace) = [] :=
  ⟨rfl, List.cons_ne_nil _ _, rfl⟩

/-- Boolean form of the per-Document invariant: last-sent ≤ current and the
applied-diagnostics version, when present, is ≤ current. -/
def docInvB (d : Document) : Bool :=
  decide (d.lastSent ≤ d.currentVersion) &&
    (match d.lastDiagVersion with
     | some v => decide (v ≤ d.currentVersion)
     | none => true)

/-- The per-Document invariant over every Document of the map. -/
def mapInvB (m : DocMap) : Bool :=
  m.all fun p => docInvB p.2

/-- Modelled from the spec: a DiagnosticSet carries the document version it
was computed against, so the server can only report a version it received,
i.e. one that is ≤ the document's last-sent version at application time. -/
def diagOkB (m : DocMap) (o : Op) : Bool :=
  match o with
  | .opApplyDiag uri v _ =>
    match lookupDoc m uri with
    | some d => decide (v ≤ d.lastSent)
    | none => true
  | _ => true

/-- A run is sane when every diagnostics application in it reports a version
the server could have seen (see `diagOkB`). -/
def saneRun (m : DocMap) : List Op → Bool
  | [] => true
  | o :: rest => diagOkB m o && saneRun (stepDoc m o).1 rest

theorem lookupDoc_mem (m : DocMap) (uri : String) (d : Document)
    (h : lookupDoc m uri = some d) : (uri, d) ∈ m := by
  induction m with
  | nil => simp [lookupDoc] at h
  | cons p rest ih =>
    rcases p with ⟨u, dd⟩
    by_cases hu : u = uri
    · subst hu
      simp [lookupDoc] at h
      subst h
      exact List.mem_cons_self _ _
    · simp only [lookupDoc, if_neg hu] at h
      exact List.mem_cons_of_mem _ (ih h)

theorem docInvB_iff (d : Document) :
    docInvB d = true ↔
      d.lastSent ≤ d.currentVersion ∧
      ∀ v, d.lastDiagVersion = some v → v ≤ d.currentVersion := by
  rcases d with ⟨c, s, ldv, r⟩
  cases ldv <;> simp [docInvB]

theorem docInvB_of_lookup (m : DocMap) (uri : String) (d : Document)
    (hm : mapInvB m = true) (h : lookupDoc m uri = some d) :
    docInvB d = true := by
  simp only [mapInvB, List.all_eq_true] at hm
  exact hm (uri, d) (lookupDoc_mem m uri d h)

theorem mapInvB_removeDoc (m : DocMap) (uri : String)
    (hm : mapInvB m = true) : mapInvB (removeDoc m uri) = true := by
  simp only [mapInvB, List.all_eq_true] at hm ⊢
  intro p hp
  exact hm p (List.mem_of_mem_filter hp)

theorem mapInvB_updateDoc (m : DocMap) (uri : String) (d : Document)
    (hm : mapInvB m = true) (hd : docInvB d = true) :
    mapInvB (updateDoc m uri d) = true := by
  simp only [updateDoc, mapInvB, List.all_eq_true] at *
  intro p hp
  rcases List.mem_cons.mp hp with h | h
  · subst h; exact hd
  · exact hm p (List.mem_of_mem_filter h)

theorem stepDoc_preserves (m : DocMap) (o : Op) (hm : mapInvB m = true)
    (ho : diagOkB m o = true) : mapInvB (stepDoc m o).1 = true := by
  cases o with
  | opOpen uri =>
    exact mapInvB_updateDoc m uri _ hm (by decide)
  | opChange uri v =>
    simp only [stepDoc, onChange]
    cases hl : lookupDoc m uri with
    | none => exact hm
    | some d =>
      have hd := (docInvB_iff d).mp (docInvB_of_lookup m uri d hm hl)
      by_cases hv : d.currentVersion < v
      · simp only [if_pos hv]
        refine mapInvB_updateDoc m uri _ hm ?_
        rw [docInvB_iff]
        dsimp only
        refine ⟨Nat.le_refl v, fun w hw => ?_⟩
        have h2 := hd.2 w hw
        omega
      · simp only [if_neg hv]
        exact hm
  | opClose uri =>
    simp only [stepDoc, onClose]
    cases hl : lookupDoc m uri with
    | none => exact hm
    | some d => exact mapInvB_removeDoc m uri hm
  | opApplyDiag uri v ds =>
    simp only [stepDoc, applyDiagnostics]
    cases hl : lookupDoc m uri with
    | none => exact hm
    | some d =>
      obtain ⟨hd1, hd2⟩ := (docInvB_iff d).mp (docInvB_of_lookup m uri d hm hl)
      have hvs : v ≤ d.lastSent := by
        simpa [diagOkB, hl] using ho
      have hnew : docInvB
          { d with lastDiagVersion := some v, retained := ds } = true := by
        rw [docInvB_iff]
        dsimp only
        refine ⟨hd1, fun w hw => ?_⟩
        simp only [Option.some.injEq] at hw
        omega
      dsimp only
      cases hldv : d.lastDiagVersion with
      | none => exact mapInvB_updateDoc m uri _ hm hnew
      | some v' =>
        dsimp only
        by_cases hlt : v < v'
        · rw [if_pos hlt]
          exact hm
        · rw [if_neg hlt]
          exact mapInvB_updateDoc m uri _ hm hnew

theorem runDoc_preserves (ops : List Op) :
    ∀ m : DocMap, mapInvB m = true → saneRun m ops = true →
      mapInvB (runDoc m ops) = true := by
  induction ops with
  | nil => intro m hm _; exact hm
  | cons o rest ih =>
    intro m hm hs
    simp only [saneRun, Bool.and_eq_true] at hs
    exact ih _ (stepDoc_preserves m o hm hs.1) hs.2

/-- C3: in every state reachable from the initial (empty) Session by a
sequence of operations in which each diagnostics application reports a
version the server was actually sent, every existing Document satisfies
last-sent ≤ current version, and its applied-diagnostics version is absent
or ≤ the current version. -/
theorem doc_version_invariant (ops : List Op) (uri : String) (d : Document)
    (hs : saneRun [] ops = true)
    (hd : lookupDoc (runDoc [] ops) uri = some d) :
    d.lastSent ≤ d.currentVersion ∧
    ∀ v, d.lastDiagVersion = some v → v ≤ d.currentVersion :=
  (docInvB_iff d).mp
    (docInvB_of_lookup _ uri d (runDoc_preserves ops [] rfl hs) hd)

/-- Concrete sane trace used by the C3 witness: open, change to version 2,
apply diagnostics computed against version 2. -/
def wTrace : List Op :=
  [.opOpen "a.go", .opChange "a.go" 2, .opApplyDiag "a.go" 2 [mainGoDiag]]

/-- Witness for C3 at a concrete input: the document reached by `wTrace`
satisfies the version invariant. -/
theorem doc_version_invariant_witness :
    (Document.mk 2 2 (some 2) [mainGoDiag]).lastSent ≤
      (Document.mk 2 2 (some 2) [mainGoDiag]).currentVersion ∧
    ∀ v, (Document.mk 2 2 (some 2) [mainGoDiag]).lastDiagVersion = some v →
      v ≤ (Document.mk 2 2 (some 2) [mainGoDiag]).currentVersion :=
  doc_version_invariant wTrace "a.go" ⟨2, 2, some 2, [mainGoDiag]⟩ rfl rfl

/-- Modelled from the spec: a PendingRequest records the method name and
parameters of an outstanding request.  (The Request Tracker is not under
src/.) -/
structure PendingRequest where
  method : String
  params : String
deriving Repr, DecidableEq

/-- Modelled from the spec: the terminal outcome of a request: the server's
result, the server-reported application error, a timeout, or transport
closure. -/
inductive Outcome
  | result (r : String)
  | appError (e : String)
  | timeout
  | transportClosed
deriving Repr, DecidableEq

/-- Modelled from the spec: the Request Tracker holds a strictly increasing
identifier counter, the pending-response table, and the outcomes already
delivered to callers.  (The Request Tracker is not under src/.) -/
structure Tracker where
  nextId : Nat
  pending : List (Nat × PendingRequest)
  resolved : List (Nat × Outcome)
deriving Repr, DecidableEq

/-- The Tracker of a freshly initialized Session. -/
def initTracker : Tracker := ⟨0, [], []⟩

/-- Modelled from the spec: `submit(method, params)` allocates a fresh
identifier from a strictly increasing counter, records a PendingRequest,
and returns the identifier. -/
def submit (t : Tracker) (method params : String) : Tracker × Nat :=
  ({ t with
      nextId := t.nextId + 1,
      pending := (t.nextId, ⟨method, params⟩) :: t.pending },
   t.nextId)

/-- Look up the PendingRequest recorded for an identifier. -/
def lookupPending : List (Nat × PendingRequest) → Nat → Option PendingRequest
  | [], _ => none
  | (j, pr) :: rest, i => if j = i then some pr else lookupPending rest i

/-- Remove the pending entry for an identifier. -/
def removePending : List (Nat × PendingRequest) → Nat →
    List (Nat × PendingRequest)
  | [], _ => []
  | (j, pr) :: rest, i =>
    if j = i then removePending rest i else (j, pr) :: removePending rest i

/-- The diagnostic log line emitted for a response with no matching
PendingRequest (a protocol violation by the server, not fatal). -/
def unmatchedMsg (i : Nat) : String :=
  "unmatched response for request id " ++ toString i

/-- Modelled from the spec: `complete(identifier, result_or_error)` resolves
the matching PendingRequest exactly once; when no PendingRequest exists for
the identifier it is a no-op apart from a diagnostic log line (returned as
output, not stored). -/
def complete (t : Tracker) (i : Nat) (o : Outcome) : Tracker × List String :=
  match lookupPending t.pending i with
  | some _ =>
    ({ t with
        pending := removePending t.pending i,
        resolved := t.resolved ++ [(i, o)] }, [])
  | none => (t, [unmatchedMsg i])

/-- One Request Tracker interaction: a submission from the outbound path or
a completion from the inbound loop (result, error, or timeout failure). -/
inductive TrackerOp
  | opSubmit (method params : String)
  | opComplete (i : Nat) (o : Outcome)
deriving Repr, DecidableEq

/-- Apply one Tracker interaction. -/
def trackerStep (t : Tracker) (op : TrackerOp) : Tracker :=
  match op with
  | .opSubmit m p => (submit t m p).1
  | .opComplete i o => (complete t i o).1

/-- Run a sequence of Tracker interactions. -/
def runTracker (t : Tracker) : List TrackerOp → Tracker
  | [] => t
  | op :: rest => runTracker (trackerStep t op) rest

/-- The identifiers returned to callers by the submissions of a run, in
submission order. -/
def issuedIds (t : Tracker) : List TrackerOp → List Nat
  | [] => []
  | op :: rest =>
    (match op with
     | .opSubmit _ _ => [t.nextId]
     | .opComplete _ _ => []) ++ issuedIds (trackerStep t op) rest

/-- Modelled from the spec: at Session teardown (shutdown or transport
failure) every still-pending request is failed with `TransportClosed`. -/
def teardown (t : Tracker) : Tracker :=
  { t with
      pending := [],
      resolved :=
        t.resolved ++ t.pending.map fun p => (p.1, Outcome.transportClosed) }

/-- Identifiers of the pending-response table. -/
def pids (t : Tracker) : List Nat := t.pending.map Prod.fst

/-- Identifiers whose callers have been handed a terminal outcome. -/
def rids (t : Tracker) : List Nat := t.resolved.map Prod.fst

theorem complete_nextId (t : Tracker) (i : Nat) (o : Outcome) :
    (complete t i o).1.nextId = t.nextId := by
  cases h : lookupPending t.pending i <;> simp [complete, h]

theorem issued_lt (ops : List TrackerOp) :
    ∀ (t : Tracker) (i : Nat), i ∈ issuedIds t ops → t.nextId ≤ i := by
  induction ops with
  | nil => intro t i h; simp [issuedIds] at h
  | cons op rest ih =>
    intro t i h
    cases op with
    | opSubmit m p =>
      simp only [issuedIds, List.singleton_append, List.mem_cons] at h
      rcases h with h1 | h2
      · omega
      · have hrec := ih _ i h2
        simp only [trackerStep, submit] at hrec
        omega
    | opComplete j o =>
      simp only [issuedIds, List.nil_append] at h
      have hrec := ih _ i h
      have hn := complete_nextId t j o
      simp only [trackerStep] at hrec
      omega

theorem issued_pairwise_lt (ops : List TrackerOp) :
    ∀ t : Tracker, (issuedIds t ops).Pairwise (· < ·) := by
  induction ops with
  | nil => intro t; simp [issuedIds]
  | cons op rest ih =>
    intro t
    cases op with
    | opSubmit m p =>
      simp only [issuedIds, List.singleton_append]
      refine List.Pairwise.cons (fun b hb => ?_) (ih _)
      have hrec := issued_lt rest _ b hb
      simp only [trackerStep, submit] at hrec
      omega
    | opComplete j o =>
      simpa [issuedIds] using ih _

theorem lookupPending_removePending (l : List (Nat × PendingRequest))
    (i : Nat) : lookupPending (removePending l i) i = none := by
  induction l with
  | nil => rfl
  | cons p rest ih =>
    rcases p with ⟨j, pr⟩
    by_cases hj : j = i
    · simpa [removePending, hj] using ih
    · simp [removePending, lookupPending, hj, ih]

/-- C4: submit allocates identifiers from a strictly increasing counter that
is never reused for the session lifetime, so any two submitted requests
receive distinct identifiers; and a matched completion resolves exactly the
caller whose submit returned that identifier, removing only that entry from
the pending table. -/
theorem submit_ids_distinct_and_routing (t : Tracker) (ops : List TrackerOp)
    (i : Nat) (o : Outcome) :
    (issuedIds t ops).Pairwise (fun a b => a ≠ b) ∧
    (∀ pr, lookupPending t.pending i = some pr →
      (complete t i o).1.resolved = t.resolved ++ [(i, o)] ∧
      (complete t i o).1.pending = removePending t.pending i) := by
  constructor
  · exact (issued_pairwise_lt ops t).imp Nat.ne_of_lt
  · intro pr hpr
    simp [complete, hpr]

/-- Witness for C4 at a concrete input: completing identifier 0 resolves the
caller that submitted identifier 0 and removes only that pending entry. -/
theorem submit_ids_distinct_and_routing_witness :
    (complete ⟨1, [(0, ⟨"m", "p"⟩)], []⟩ 0 (Outcome.result "ok")).1.resolved =
      [] ++ [(0, Outcome.result "ok")] ∧
    (complete ⟨1, [(0, ⟨"m", "p"⟩)], []⟩ 0 (Outcome.result "ok")).1.pending =
      removePending [(0, ⟨"m", "p"⟩)] 0 :=
  (submit_ids_distinct_and_routing ⟨1, [(0, ⟨"m", "p"⟩)], []⟩ []
    0 (Outcome.result "ok")).2 ⟨"m", "p"⟩ rfl

/-- C5: `complete(identifier, result_or_error)` takes effect at most once:
a completion for an identifier with no PendingRequest leaves the Tracker
unchanged and only emits a diagnostic log line (not fatal), and a second
completion for an already-completed identifier is ignored the same way. -/
theorem complete_exactly_once (t : Tracker) (i : Nat) (o o' : Outcome) :
    (lookupPending t.pending i = none →
      complete t i o = (t, [unmatchedMsg i])) ∧
    (∀ pr, lookupPending t.pending i = some pr →
      complete (complete t i o).1 i o' =
        ((complete t i o).1, [unmatchedMsg i])) := by
  constructor
  · intro h
    simp [complete, h]
  · intro pr h
    have h1 : (complete t i o).1 =
        { t with
            pending := removePending t.pending i,
            resolved := t.resolved ++ [(i, o)] } := by
      simp [complete, h]
    rw [h1]
    simp [complete, lookupPending_removePending]

/-- Witness for C5 at a concrete input: a late second completion for
identifier 0 is ignored apart from the diagnostic log line. -/
theorem complete_exactly_once_witness :
    complete (complete ⟨1, [(0, ⟨"m", "p"⟩)], []⟩ 0 Outcome.timeout).1 0
        (Outcome.result "late") =
      ((complete ⟨1, [(0, ⟨"m", "p"⟩)], []⟩ 0 Outcome.timeout).1,
       [unmatchedMsg 0]) :=
  (complete_exactly_once ⟨1, [(0, ⟨"m", "p"⟩)], []⟩ 0 Outcome.timeout
    (Outcome.result "late")).2 ⟨"m", "p"⟩ rfl

theorem lookupPending_mem (l : List (Nat × PendingRequest)) (i : Nat)
    (pr : PendingRequest) (h : lookupPending l i = some pr) : (i, pr) ∈ l := by
  induction l with
  | nil => simp [lookupPending] at h
  | cons p rest ih =>
    rcases p with ⟨j, q⟩
    by_cases hj : j = i
    · subst hj
      simp [lookupPending] at h
      subst h
      exact List.mem_cons_self _ _
    · simp only [lookupPending, if_neg hj] at h
      exact List.mem_cons_of_mem _ (ih h)

theorem removePending_subset (l : List (Nat × PendingRequest)) (i : Nat) :
    ∀ x ∈ removePending l i, x ∈ l := by
  induction l with
  | nil => intro x hx; simp [removePending] at hx
  | cons p rest ih =>
    rcases p with ⟨j, q⟩
    intro x hx
    by_cases hj : j = i
    · simp only [removePending, if_pos hj] at hx
      exact List.mem_cons_of_mem _ (ih x hx)
    · simp only [removePending, if_neg hj] at hx
      rcases List.mem_cons.mp hx with h1 | h1
      · exact h1 ▸ List.mem_cons_self _ _
      · exact List.mem_cons_of_mem _ (ih x h1)

theorem count_removePending (l : List (Nat × PendingRequest)) (i j : Nat) :
    List.count j ((removePending l i).map Prod.fst) =
      if j = i then 0 else List.count j (l.map Prod.fst) := by
  induction l with
  | nil => simp [removePending]
  | cons p rest ih =>
    rcases p with ⟨k, q⟩
    by_cases hk : k = i
    · subst hk
      rw [show removePending ((k, q) :: rest) k = removePending rest k from by
        simp [removePending]]
      rw [ih]
      by_cases hj : j = k
      · simp [hj]
      · have hj2 : ¬k = j := fun hh => hj hh.symm
        simp [List.count_cons, hj, hj2]
    · rw [show removePending ((k, q) :: rest) i =
            (k, q) :: removePending rest i from by simp [removePending, hk]]
      simp only [List.map_cons, List.count_cons, ih]
      by_cases hj : j = i
      · subst hj
        have hk2 : ¬j = k := fun hh => hk hh.symm
        simp [hk, hk2]
      · simp [hj]

/-- Well-formedness of the pending table: every pending identifier was
allocated below the counter, and no identifier is pending twice. -/
def pendingWF (t : Tracker) : Prop :=
  (∀ x ∈ pids t, x < t.nextId) ∧ (pids t).Nodup

theorem pendingWF_step (t : Tracker) (op : TrackerOp) (h : pendingWF t) :
    pendingWF (trackerStep t op) := by
  obtain ⟨hb, hnd⟩ := h
  cases op with
  | opSubmit m p =>
    constructor
    · intro x hx
      simp only [trackerStep, submit, pids, List.map_cons, List.mem_cons] at hx
      simp only [trackerStep, submit]
      rcases hx with h1 | h1
      · omega
      · have := hb x h1
        omega
    · simp only [trackerStep, submit, pids, List.map_cons]
      rw [List.nodup_cons]
      exact ⟨fun hm => by have := hb _ hm; omega, hnd⟩
  | opComplete i o =>
    cases hl : lookupPending t.pending i with
    | none =>
      have ht : trackerStep t (.opComplete i o) = t := by
        simp [trackerStep, complete, hl]
      rw [ht]
      exact ⟨hb, hnd⟩
    | some pr =>
      have hp : trackerStep t (.opComplete i o) =
          { t with
              pending := removePending t.pending i,
              resolved := t.resolved ++ [(i, o)] } := by
        simp [trackerStep, complete, hl]
      rw [hp]
      constructor
      · intro x hx
        simp only [pids, List.mem_map] at hx
        obtain ⟨a, ha, rfl⟩ := hx
        exact hb _ (List.mem_map_of_mem Prod.fst (removePending_subset _ _ _ ha))
      · rw [List.nodup_iff_count_le_one]
        intro a
        have := count_removePending t.pending i a
        by_cases ha : a = i
        · simp only [pids]
          rw [this, if_pos ha]
          omega
        · simp only [pids]
          rw [this, if_neg ha]
          exact List.nodup_iff_count_le_one.mp hnd a

theorem run_count (ops : List TrackerOp) :
    ∀ t : Tracker, pendingWF t → ∀ j : Nat,
      List.count j (pids (runTracker t ops)) +
          List.count j (rids (runTracker t ops)) =
        List.count j (pids t) + List.count j (rids t) +
          List.count j (issuedIds t ops) := by
  induction ops with
  | nil => intro t _ j; simp [runTracker, issuedIds]
  | cons op rest ih =>
    intro t h j
    obtain ⟨hb, hnd⟩ := h
    have H := ih (trackerStep t op) (pendingWF_step t op ⟨hb, hnd⟩) j
    cases op with
    | opSubmit m p =>
      simp only [runTracker] at H ⊢
      rw [H]
      simp only [issuedIds, List.singleton_append, trackerStep, submit, pids,
        rids, List.map_cons, List.count_cons]
      by_cases hj : t.nextId = j <;> first
      | (simp [hj]; omega)
      | simp [hj]
    | opComplete i o =>
      cases hl : lookupPending t.pending i with
      | none =>
        have ht : trackerStep t (.opComplete i o) = t := by
          simp [trackerStep, complete, hl]
        simp only [runTracker, issuedIds, List.nil_append, ht] at H ⊢
        exact H
      | some pr =>
        have hp : trackerStep t (.opComplete i o) =
            { t with
                pending := removePending t.pending i,
                resolved := t.resolved ++ [(i, o)] } := by
          simp [trackerStep, complete, hl]
        have hcnt1 : List.count i (pids t) = 1 :=
          List.count_eq_one_of_mem hnd
            (List.mem_map_of_mem Prod.fst (lookupPending_mem _ _ _ hl))
        simp only [runTracker, issuedIds, List.nil_append, hp] at H ⊢
        rw [H]
        simp only [pids, rids, List.map_append, List.count_append,
          count_removePending]
        by_cases hj : j = i
        · subst hj
          rw [if_pos rfl]
          have hone : List.count j (List.map Prod.fst [(j, o)]) = 1 := by
            simp
          rw [hone]
          simp only [pids] at hcnt1
          omega
        · rw [if_neg hj]
          have hz : List.count j (List.map Prod.fst [(i, o)]) = 0 := by
            apply List.count_eq_zero_of_not_mem
            simp [hj]
          rw [hz]
          omega

theorem pids_teardown (t : Tracker) : pids (teardown t) = [] := by
  simp [teardown, pids]

theorem rids_teardown (t : Tracker) (j : Nat) :
    List.count j (rids (teardown t)) =
      List.count j (rids t) + List.count j (pids t) := by
  simp only [teardown, rids, pids, List.map_append, List.count_append,
    List.map_map]
  congr 2

/-- C6: every request submitted through the Request Tracker reaches exactly
one terminal outcome — it is completed with the server's result or error, or
failed with a timeout during the run, or failed with TransportClosed at
Session teardown — and no submitted request is left pending: after any run
followed by teardown, the pending table is empty and each issued identifier
carries exactly one resolution. -/
theorem every_request_terminal (ops : List TrackerOp) (j : Nat) :
    (teardown (runTracker initTracker ops)).pending = [] ∧
    List.count j (rids (teardown (runTracker initTracker ops))) =
      if j ∈ issuedIds initTracker ops then 1 else 0 := by
  have hwf : pendingWF initTracker := by
    constructor
    · intro x hx
      simp [pids, initTracker] at hx
    · simp [pids, initTracker]
  have H := run_count ops initTracker hwf j
  have hp0 : List.count j (pids initTracker) = 0 := rfl
  have hr0 : List.count j (rids initTracker) = 0 := rfl
  rw [hp0, hr0] at H
  constructor
  · simp [teardown]
  · rw [rids_teardown]
    have hnd : (issuedIds initTracker ops).Nodup :=
      (issued_pairwise_lt ops initTracker).imp Nat.ne_of_lt
    by_cases hmem : j ∈ issuedIds initTracker ops
    · rw [if_pos hmem]
      have h1 := List.count_eq_one_of_mem hnd hmem
      omega
    · rw [if_neg hmem]
      have h0 := List.count_eq_zero_of_not_mem hmem
      omega

/-- Embedded from generate.go, `valueDoc`: transforms a docstring
documenting a constant identifier into a docstring documenting its value.
Go's strings.HasPrefix is rendered as a character-list prefix test and the
byte slice `doc[len(name):]` as a character-count drop; these agree with the
byte-level originals because the branch requires name to be a leading piece
of doc. -/
def valueDoc (name value doc : String) : String :=
  if doc = "" then ""
  else if name.data.isPrefixOf doc.data then
    "`" ++ value ++ "`" ++ doc.drop name.length
  else "`" ++ value ++ "`: " ++ doc

/-- C9: valueDoc returns the empty string when doc is empty; returns the
backquoted value followed by doc with its leading name removed when doc
starts with name; and otherwise returns the backquoted value, a colon
separator, and doc unchanged. -/
theorem valueDoc_cases (name value doc : String) :
    (doc = "" → valueDoc name value doc = "") ∧
    (doc ≠ "" → name.data.isPrefixOf doc.data = true →
      valueDoc name value doc = "`" ++ value ++ "`" ++ doc.drop name.length) ∧
    (doc ≠ "" → name.data.isPrefixOf doc.data = false →
      valueDoc name value doc = "`" ++ value ++ "`: " ++ doc) := by
  refine ⟨fun h => by simp [valueDoc, h], fun h hs => ?_, fun h hs => ?_⟩
  · simp [valueDoc, h, hs]
  · simp [valueDoc, h, hs]

/-- Witness for C9 at a concrete input: a docstring in standard form has its
subject replaced by the backquoted value. -/
theorem valueDoc_cases_witness :
    valueDoc "Foo" "fooValue" "Foo is a bar" =
      "`" ++ "fooValue" ++ "`" ++ ("Foo is a bar").drop ("Foo").length :=
  (valueDoc_cases "Foo" "fooValue" "Foo is a bar").2.1 (by decide) (by decide)

/-- Embedded from generate.go, `source.CommandJSON` as populated by
`loadCommands`: Command holds the command's original name, Title its title
(the name when no title literal is present), Doc its docstring. -/
structure CommandJSON where
  Command : String
  Title : String
  Doc : String
deriving Repr, DecidableEq

/-- Embedded from generate.go, the loop in `generate` that transforms the
internal command name to the external one by prepending
`source.CommandPrefix` (a constant of the source package, which is not
under src/, so the prepended string is a parameter here). -/
def toExternalCommands (pre : String) (cmds : List CommandJSON) :
    List CommandJSON :=
  cmds.map fun c => { c with Command := pre ++ c.Command }

/-- C10: after the prefixing step of generate, the command list contains
each command with its Command field equal to the command prefix
concatenated with the command's original name, while Title and Doc are
unchanged by the prefixing step. -/
theorem commands_prefixed (pre : String) (cmds : List CommandJSON) (i : Nat)
    (c : CommandJSON) (h : cmds[i]? = some c) :
    (toExternalCommands pre cmds)[i]? =
      some { Command := pre ++ c.Command, Title := c.Title, Doc := c.Doc } := by
  simp [toExternalCommands, List.getElem?_map, h]

/-- Witness for C10 at a concrete input: one command gains the prefix and
keeps its title and doc. -/
theorem commands_prefixed_witness :
    (toExternalCommands "gopls."
        [⟨"generate", "Run go generate", "generate runs go generate"⟩])[0]? =
      some ⟨"gopls." ++ "generate", "Run go generate",
        "generate runs go generate"⟩ :=
  commands_prefixed "gopls."
    [⟨"generate", "Run go generate", "generate runs go generate"⟩] 0
    ⟨"generate", "Run go generate", "generate runs go generate"⟩ rfl
